import Mathlib

/-!
Shallow embedding of `torchlft.functional.transforms` (and the reduction
utility `sum_except_batch` of `torchlft.utils`, modelled from the spec).

A tensor of shape `(batch, *event)` is modelled as a `List (List F)`: the
outer list is the batch axis, the inner list the flattened event axes.
Machine floats are modelled by an arbitrary linear ordered field, so the
purely rational arithmetic of the spline stays computable; the
transcendental maps (`log`, `sqrt`, `exp`, `tanh`) are supplied as explicit
function arguments and instantiated with `Real.log`, `Real.sqrt`, … in the
theorems where their semantics matter.  `torch.reciprocal` is modelled by
field inverse (so `0⁻¹ = 0` where torch produces `inf`); `torch.gather`
raises on an out-of-range index, modelled by `Option` (`none` = the call
raises and returns no result).
-/

namespace LFT

variable {F : Type} [LinearOrderedField F]

/-- `torch.searchsorted(ks, v)` with the default `right=False` on a sorted
one-dimensional `ks`: the left insertion point, i.e. the number of entries
strictly below `v`. -/
def searchsorted (ks : List F) (v : F) : ℕ :=
  ks.countP (fun a => decide (a < v))

/-- `Tensor.clamp_(0, 1)` on one element. -/
def clamp01 (a : F) : F := min (max a 0) 1

/-- The segment index of `transforms.py:257-258` / `319-320`:
`searchsorted(knots, v) - 1` clamped into `[0, kmax]`, where the source
passes `kmax = widths.shape[-1]` (the number of segments `K`, not `K - 1`).
Natural subtraction realises the lower clamp at `0`. -/
def segIdx (ks : List F) (kmax : ℕ) (v : F) : ℕ :=
  min (searchsorted ks v - 1) kmax

/-- The six `torch.gather` calls of `transforms.py:261-266` / `323-328` for
one element whose segment index is `i`: `none` models the `RuntimeError`
torch raises on an out-of-range gather index. -/
def tryGather (widths heights derivs kx ky : List F) (i : ℕ) :
    Option (F × F × F × F × F × F) := do
  let w ← widths[i]?
  let h ← heights[i]?
  let d0 ← derivs[i]?
  let d1 ← derivs[i + 1]?
  let x0 ← kx[i]?
  let y0 ← ky[i]?
  pure (w, h, d0, d1, x0, y0)

/-- Reciprocal of the rational-quadratic denominator (`transforms.py:279-281`
and `344-346`). -/
def rqDenomRecip (s d0 d1 a : F) : F :=
  (s + (d1 + d0 - 2 * s) * a * (1 - a))⁻¹

/-- `beta` of `transforms.py:282`. -/
def rqBeta (s d0 d1 a : F) : F :=
  (s * a ^ 2 + d0 * a * (1 - a)) * rqDenomRecip s d0 d1 a

/-- The analytic forward gradient of `transforms.py:285-293` (recomputed at
the recovered `alpha` in `transforms.py:347-355`). -/
def rqGrad (s d0 d1 a : F) : F :=
  s ^ 2 * (d1 * a ^ 2 + 2 * s * a * (1 - a) + d0 * (1 - a) ^ 2) *
    rqDenomRecip s d0 d1 a ^ 2

/-- One element of the forward spline (`transforms.py:257-293`): segment
search, gather, local coordinate `alpha = clamp01((x - x0)/w)`, the
rational-quadratic value `y` and the analytic gradient. -/
def fwdElem (widths heights derivs kx ky : List F) (x : F) : Option (F × F) :=
  match tryGather widths heights derivs kx ky (segIdx kx widths.length x) with
  | none => none
  | some (w, h, d0, d1, x0, y0) =>
    let s := h / w
    let alpha := clamp01 ((x - x0) / w)
    some (y0 + h * rqBeta s d0 d1 alpha, rqGrad s d0 d1 alpha)

/-- Coefficient `b` of the segment quadratic (`transforms.py:338`). -/
def invB (s d0 d1 be : F) : F := d0 - (d1 + d0 - 2 * s) * be

/-- Coefficient `a` of the segment quadratic (`transforms.py:339`). -/
def invA (s d0 d1 be : F) : F := s - invB s d0 d1 be

/-- Coefficient `c` of the segment quadratic (`transforms.py:340`). -/
def invC (s be : F) : F := -s * be

/-- One element of the inverse spline (`transforms.py:319-355`): segment
search on `knots_ycoords`, gather, `beta = clamp01((y - y0)/w)` (the source
divides by the width `w`, not the height), the stable quadratic root
`alpha = -2c / (b + sqrt(b² - 4ac))`, the recovered `x` and the forward
gradient recomputed at `alpha`. -/
def invElem (sq : F → F) (widths heights derivs kx ky : List F) (y : F) :
    Option (F × F) :=
  match tryGather widths heights derivs kx ky (segIdx ky widths.length y) with
  | none => none
  | some (w, h, d0, d1, x0, y0) =>
    let s := h / w
    let be := clamp01 ((y - y0) / w)
    let b := invB s d0 d1 be
    let a := invA s d0 d1 be
    let c := invC s be
    let alpha := -2 * c * (b + sq (b ^ 2 - 4 * a * c))⁻¹
    some (x0 + w * alpha, rqGrad s d0 d1 alpha)

/-- Vectorised elementwise application: `some` only when every element
succeeds, mirroring a torch op that raises on any element. -/
def omap {β γ : Type} (g : β → Option γ) : List β → Option (List γ)
  | [] => some []
  | b :: bs => do
    let c ← g b
    let cs ← omap g bs
    pure (c :: cs)

/-- `rq_spline_transform` (`transforms.py:241-300`).  The head and last knot
are read first (the out-of-interval mask of lines 250-253), every element is
evaluated, the `assert torch.all(gradient > 0)` of line 294 yields `none`
when violated, masked elements are overwritten with their inputs (line 296),
and the log-det-Jacobian sums `log(gradient)` over every element of a batch
row — masked elements included, exactly as line 298 does. -/
def rq_spline_transform (lg : F → F) (x : List (List F))
    (widths heights derivs kx ky : List F) :
    Option (List (List F) × List F) := do
  let k0 ← kx[0]?
  let kl ← kx[kx.length - 1]?
  let rows ← omap (omap (fwdElem widths heights derivs kx ky)) x
  if rows.all (fun row => row.all (fun p => decide (0 < p.2))) then
    some
      (List.zipWith
        (fun xrow prow =>
          List.zipWith (fun xi p => if xi < k0 ∨ kl < xi then xi else p.1)
            xrow prow)
        x rows,
      rows.map (fun row => (row.map (fun p => lg p.2)).sum))
  else none

/-- `inv_rq_spline_transform` (`transforms.py:303-359`).  The head and last
y-knot are read for the out-of-interval mask (lines 312-315), whose value is
then used only by the diagnostic: the source applies no identity
pass-through and no assertion in this direction.  The log-det-Jacobian is
`sum_except_batch(-log(gradient_fwd))` (line 357). -/
def inv_rq_spline_transform (lg sq : F → F) (y : List (List F))
    (widths heights derivs kx ky : List F) :
    Option (List (List F) × List F) := do
  let _k0 ← ky[0]?
  let _kl ← ky[ky.length - 1]?
  let rows ← omap (omap (invElem sq widths heights derivs kx ky)) y
  some (rows.map (List.map Prod.fst),
    rows.map (fun row => (row.map (fun p => -lg p.2)).sum))

/-- The gradients the forward pass computes, when it reaches its assertion:
the same knot reads and elementwise evaluation as `rq_spline_transform`,
before the positivity check. -/
def fwdGradients (x : List (List F)) (widths heights derivs kx ky : List F) :
    Option (List (List F)) := do
  let _k0 ← kx[0]?
  let _kl ← kx[kx.length - 1]?
  let rows ← omap (omap (fwdElem widths heights derivs kx ky)) x
  pure (rows.map (List.map Prod.snd))

/-- Cumulative knot positions (spec §3: `knots_xcoords`/`knots_ycoords` are
the cumulative positions of segments of the given widths/heights). -/
def knotsOf (a : F) (l : List F) : List F :=
  l.scanl (fun p w => p + w) a

/-- The `j`-th cumulative knot position. -/
def cum (a : F) (l : List F) (j : ℕ) : F := a + (l.take j).sum

/-! ### The elementwise bijector set (`transforms.py:31-238`)

These maps use the transcendental functions of the ambient substrate, so they
are defined directly over `ℝ`.  A parameter tensor is modelled with the same
shape as the coordinate tensor (the broadcast case exercised by the library:
parameters produced per sample). -/

/-- Elementwise application to a batched tensor. -/
def tmap (g : ℝ → ℝ) (t : List (List ℝ)) : List (List ℝ) :=
  t.map (List.map g)

/-- Elementwise combination of a batched tensor with a parameter tensor. -/
def tmap2 (g : ℝ → ℝ → ℝ) (t p : List (List ℝ)) : List (List ℝ) :=
  List.zipWith (List.zipWith g) t p

/-- Modelled from the spec: `sum_except_batch` lives in `torchlft.utils`,
which is not among the given sources; spec §4.1 defines it as the sum over
every axis except the batch axis `0`, one scalar per batch element. -/
def sum_except_batch (t : List (List ℝ)) : List ℝ :=
  t.map List.sum

/-- `tanh` (`transforms.py:31-43`): `y = tanh x`,
`ldj = sum_except_batch(log(cosh x) * (-2))`. -/
noncomputable def tanh (x : List (List ℝ)) : List (List ℝ) × List ℝ :=
  (tmap Real.tanh x,
    sum_except_batch (tmap (fun v => Real.log (Real.cosh v) * (-2)) x))

/-- The inverse hyperbolic tangent (`torch.atanh`), in its standard closed
form. -/
noncomputable def atanh (v : ℝ) : ℝ :=
  Real.log ((1 + v) / (1 - v)) / 2

/-- `inv_tanh` (`transforms.py:46-58`): `x = atanh y`,
`ldj = sum_except_batch(-(log1p(-(y²))))`. -/
noncomputable def inv_tanh (y : List (List ℝ)) : List (List ℝ) × List ℝ :=
  (tmap atanh y,
    sum_except_batch (tmap (fun v => -Real.log (1 + -(v ^ 2))) y))

/-- `translation` (`transforms.py:61-83`): `y = x + t`,
`ldj = zeros(y.shape[0])`. -/
def translation (x shift : List (List ℝ)) : List (List ℝ) × List ℝ :=
  (tmap2 (fun a t => a + t) x shift,
    List.replicate (tmap2 (fun a t => a + t) x shift).length 0)

/-- `inv_translation` (`transforms.py:86-103`): `x = y - t`,
`ldj = zeros(y.shape[0])`. -/
def inv_translation (y shift : List (List ℝ)) : List (List ℝ) × List ℝ :=
  (tmap2 (fun a t => a - t) y shift,
    List.replicate (tmap2 (fun a t => a - t) y shift).length 0)

/-- `rescaling` (`transforms.py:106-126`): `y = x * exp(-s)`,
`ldj = sum_except_batch(-s)`. -/
noncomputable def rescaling (x log_scale : List (List ℝ)) :
    List (List ℝ) × List ℝ :=
  (tmap2 (fun a s => a * Real.exp (-s)) x log_scale,
    sum_except_batch (tmap (fun s => -s) log_scale))

/-- `inv_rescaling` (`transforms.py:129-144`): `x = y * exp s`,
`ldj = sum_except_batch(s)`. -/
noncomputable def inv_rescaling (y log_scale : List (List ℝ)) :
    List (List ℝ) × List ℝ :=
  (tmap2 (fun a s => a * Real.exp s) y log_scale,
    sum_except_batch log_scale)

/-- `soft_rescaling` (`transforms.py:147-170`): `y = x * log1p(exp s)`,
`ldj = sum_except_batch(log(log1p(exp s)))`. -/
noncomputable def soft_rescaling (x scale : List (List ℝ)) :
    List (List ℝ) × List ℝ :=
  (tmap2 (fun a s => a * Real.log (1 + Real.exp s)) x scale,
    sum_except_batch (tmap (fun s => Real.log (Real.log (1 + Real.exp s))) scale))

/-- `inv_soft_rescaling` (`transforms.py:173-189`): `x = y / log1p(exp s)`,
`ldj = sum_except_batch(-log(log1p(exp s)))`. -/
noncomputable def inv_soft_rescaling (y scale : List (List ℝ)) :
    List (List ℝ) × List ℝ :=
  (tmap2 (fun a s => a / Real.log (1 + Real.exp s)) y scale,
    sum_except_batch (tmap (fun s => -Real.log (Real.log (1 + Real.exp s))) scale))

/-- `affine_transform` (`transforms.py:192-218`): `y = x * exp(-s) + t`,
`ldj = sum_except_batch(-s)`. -/
noncomputable def affine_transform (x log_scale shift : List (List ℝ)) :
    List (List ℝ) × List ℝ :=
  (tmap2 (fun a t => a + t) (tmap2 (fun a s => a * Real.exp (-s)) x log_scale) shift,
    sum_except_batch (tmap (fun s => -s) log_scale))

/-- `inv_affine_transform` (`transforms.py:221-238`): `x = (y - t) * exp s`,
`ldj = sum_except_batch(s)`. -/
noncomputable def inv_affine_transform (y log_scale shift : List (List ℝ)) :
    List (List ℝ) × List ℝ :=
  (tmap2 (fun a s => a * Real.exp s) (tmap2 (fun a t => a - t) y shift) log_scale,
    sum_except_batch log_scale)

/-- Batch independence of a (possibly failing) batched transformation: batch
row `i` of the output and entry `i` of the log-det-Jacobian depend only on
batch row `i` of the input, whenever both calls return. -/
def batchIndep {γ : Type} (T : List (List γ) → Option (List (List γ) × List γ)) :
    Prop :=
  ∀ (x x' : List (List γ)) (i : ℕ) (o o' : List (List γ)) (l l' : List γ),
    T x = some (o, l) → T x' = some (o', l') → x[i]? = x'[i]? →
      o[i]? = o'[i]? ∧ l[i]? = l'[i]?

/-- Shape equality of two batched tensors. -/
def sameShape {γ : Type} (a b : List (List γ)) : Prop :=
  a.map List.length = b.map List.length

/-! ### List-level helper lemmas -/

theorem omap_some_getElem {β γ : Type} (g : β → Option γ) :
    ∀ (L : List β) (M : List γ), omap g L = some M → ∀ i : ℕ, M[i]? = (L[i]?).bind g := by
  intro L
  induction L with
  | nil =>
    intro M h i
    simp only [omap, Option.some.injEq] at h
    subst h
    simp
  | cons b bs ih =>
    intro M h i
    cases hc : g b with
    | none => simp [omap, hc] at h
    | some c =>
      cases hcs : omap g bs with
      | none => simp [omap, hc, hcs] at h
      | some cs =>
        simp only [omap, hc, hcs, Option.bind_eq_bind, Option.some_bind,
          Option.pure_def, Option.some.injEq] at h
        subst h
        cases i with
        | zero => simp [hc]
        | succ j => simpa using ih cs hcs j

theorem clamp01_eq_self (a : F) (h0 : 0 ≤ a) (h1 : a ≤ 1) : clamp01 a = a := by
  simp [clamp01, max_eq_left h0, min_eq_left h1]

/-! ### Positivity and monotonicity of the rational-quadratic pieces -/

theorem rqDenom_pos (s d0 d1 a : F) (hs : 0 < s) (hd0 : 0 < d0) (hd1 : 0 < d1)
    (ha0 : 0 ≤ a) (ha1 : a ≤ 1) : 0 < s + (d1 + d0 - 2 * s) * a * (1 - a) := by
  nlinarith [mul_nonneg hs.le (sq_nonneg (2 * a - 1)),
    mul_nonneg (mul_nonneg (add_pos hd0 hd1).le ha0) (sub_nonneg.2 ha1)]

theorem rqDenomRecip_pos (s d0 d1 a : F) (hs : 0 < s) (hd0 : 0 < d0) (hd1 : 0 < d1)
    (ha0 : 0 ≤ a) (ha1 : a ≤ 1) : 0 < rqDenomRecip s d0 d1 a :=
  inv_pos.2 (rqDenom_pos s d0 d1 a hs hd0 hd1 ha0 ha1)

theorem rqGrad_pos (s d0 d1 a : F) (hs : 0 < s) (hd0 : 0 < d0) (hd1 : 0 < d1)
    (ha0 : 0 ≤ a) (ha1 : a ≤ 1) : 0 < rqGrad s d0 d1 a := by
  have hm : 0 < min d0 (min d1 s) := lt_min hd0 (lt_min hd1 hs)
  have hM : 0 < d1 * a ^ 2 + 2 * s * a * (1 - a) + d0 * (1 - a) ^ 2 := by
    nlinarith [mul_nonneg (sub_nonneg.2 (min_le_left d0 (min d1 s))) (sq_nonneg (1 - a)),
      mul_nonneg (sub_nonneg.2 ((min_le_right d0 (min d1 s)).trans (min_le_left d1 s)))
        (sq_nonneg a),
      mul_nonneg (mul_nonneg
        (sub_nonneg.2 ((min_le_right d0 (min d1 s)).trans (min_le_right d1 s))) ha0)
        (sub_nonneg.2 ha1), hm]
  exact mul_pos (mul_pos (pow_pos hs 2) hM)
    (pow_pos (rqDenomRecip_pos s d0 d1 a hs hd0 hd1 ha0 ha1) 2)

theorem rqBeta_strictMono (s d0 d1 a1 a2 : F) (hs : 0 < s) (hd0 : 0 < d0) (hd1 : 0 < d1)
    (h10 : 0 ≤ a1) (h12 : a1 < a2) (h21 : a2 ≤ 1) :
    rqBeta s d0 d1 a1 < rqBeta s d0 d1 a2 := by
  have h11 : a1 ≤ 1 := h12.le.trans h21
  have h20 : 0 ≤ a2 := h10.trans h12.le
  have hQ1 : 0 < s + (d1 + d0 - 2 * s) * a1 * (1 - a1) :=
    rqDenom_pos s d0 d1 a1 hs hd0 hd1 h10 h11
  have hQ2 : 0 < s + (d1 + d0 - 2 * s) * a2 * (1 - a2) :=
    rqDenom_pos s d0 d1 a2 hs hd0 hd1 h20 h21
  have hG : 0 < d0 * ((1 - a1) * (1 - a2)) + d1 * (a1 * a2) +
      s * (a1 * (1 - a2) + a2 * (1 - a1)) := by
    have hm : 0 < min d0 (min d1 s) := lt_min hd0 (lt_min hd1 hs)
    nlinarith [mul_nonneg (sub_nonneg.2 (min_le_left d0 (min d1 s)))
        (mul_nonneg (sub_nonneg.2 h11) (sub_nonneg.2 h21)),
      mul_nonneg (sub_nonneg.2 ((min_le_right d0 (min d1 s)).trans (min_le_left d1 s)))
        (mul_nonneg h10 h20),
      mul_nonneg (sub_nonneg.2 ((min_le_right d0 (min d1 s)).trans (min_le_right d1 s)))
        (add_nonneg (mul_nonneg h10 (sub_nonneg.2 h21)) (mul_nonneg h20 (sub_nonneg.2 h11))),
      hm]
  have key : rqBeta s d0 d1 a2 - rqBeta s d0 d1 a1 =
      (s * (a2 - a1) *
        (d0 * ((1 - a1) * (1 - a2)) + d1 * (a1 * a2) +
          s * (a1 * (1 - a2) + a2 * (1 - a1)))) *
        ((s + (d1 + d0 - 2 * s) * a1 * (1 - a1))⁻¹ *
          (s + (d1 + d0 - 2 * s) * a2 * (1 - a2))⁻¹) := by
    unfold rqBeta rqDenomRecip
    field_simp
    ring
  have hpos : 0 < rqBeta s d0 d1 a2 - rqBeta s d0 d1 a1 := by
    rw [key]
    exact mul_pos (mul_pos (mul_pos hs (sub_pos.2 h12)) hG)
      (mul_pos (inv_pos.2 hQ1) (inv_pos.2 hQ2))
  linarith

theorem rqBeta_zero (s d0 d1 : F) : rqBeta s d0 d1 0 = 0 := by
  simp [rqBeta]

theorem rqBeta_one (s d0 d1 : F) (hs : s ≠ 0) : rqBeta s d0 d1 1 = 1 := by
  simp [rqBeta, rqDenomRecip]
  field_simp

/-- The discriminant of the segment quadratic is non-negative for every real
parametrization once `beta` has been clamped into `[0, 1]`: it equals
`(b - 2·s·β)² + 4·s²·β·(1-β)`. -/
theorem invDisc_nonneg (s d0 d1 be : F) (h0 : 0 ≤ be) (h1 : be ≤ 1) :
    0 ≤ invB s d0 d1 be ^ 2 - 4 * invA s d0 d1 be * invC s be := by
  have hid : invB s d0 d1 be ^ 2 - 4 * invA s d0 d1 be * invC s be =
      (invB s d0 d1 be - 2 * s * be) ^ 2 + 4 * s ^ 2 * (be * (1 - be)) := by
    unfold invA invC
    ring
  rw [hid]
  have h2 : (0 : F) ≤ 4 * s ^ 2 * (be * (1 - be)) :=
    mul_nonneg (by positivity) (mul_nonneg h0 (sub_nonneg.2 h1))
  exact add_nonneg (sq_nonneg _) h2

/-! ### Cumulative knot grids and segment search -/

theorem knotsOf_nil (a : F) : knotsOf a [] = [a] := rfl

theorem knotsOf_cons (a w : F) (l : List F) :
    knotsOf a (w :: l) = a :: knotsOf (a + w) l := by
  simp [knotsOf, List.scanl_cons]

theorem length_knotsOf (a : F) (l : List F) : (knotsOf a l).length = l.length + 1 := by
  simp [knotsOf, List.length_scanl]

theorem cum_zero (a : F) (l : List F) : cum a l 0 = a := by simp [cum]

theorem cum_cons_succ (a w : F) (l : List F) (j : ℕ) :
    cum a (w :: l) (j + 1) = cum (a + w) l j := by
  simp only [cum, List.take_succ_cons, List.sum_cons]
  ring

theorem cum_succ_getElem (a : F) (l : List F) (j : ℕ) (w : F) (hw : l[j]? = some w) :
    cum a l (j + 1) = cum a l j + w := by
  have ht : l.take (j + 1) = l.take j ++ [w] := by
    rw [List.take_succ, hw]
    rfl
  simp only [cum, ht, List.sum_append, List.sum_cons, List.sum_nil]
  ring

theorem cum_le_cum (a : F) (l : List F) (hnn : ∀ w ∈ l, 0 ≤ w) :
    ∀ i j : ℕ, i ≤ j → j ≤ l.length → cum a l i ≤ cum a l j := by
  intro i j hij
  induction j with
  | zero =>
    intro _
    cases Nat.le_zero.mp hij
    exact le_refl _
  | succ k ih =>
    intro hk1
    rcases Nat.eq_or_lt_of_le hij with heq | hlt
    · rw [heq]
    · have hik : i ≤ k := Nat.lt_succ_iff.mp hlt
      have hkl : k < l.length := hk1
      have hget : l[k]? = some l[k] := List.getElem?_eq_getElem hkl
      have hw : 0 ≤ l[k] := hnn _ (List.getElem_mem hkl)
      calc cum a l i ≤ cum a l k := ih hik (le_of_lt hkl)
        _ ≤ cum a l (k + 1) := by
            rw [cum_succ_getElem a l k _ hget]
            linarith

theorem knotsOf_getElem (l : List F) :
    ∀ (a : F) (j : ℕ), j ≤ l.length → (knotsOf a l)[j]? = some (cum a l j) := by
  induction l with
  | nil =>
    intro a j hj
    cases Nat.le_zero.mp hj
    simp [knotsOf_nil, cum_zero]
  | cons w t ih =>
    intro a j hj
    rw [knotsOf_cons]
    cases j with
    | zero => simp [cum_zero]
    | succ k =>
      have hk : k ≤ t.length := by simpa using hj
      simp only [List.getElem?_cons_succ]
      rw [ih (a + w) k hk, cum_cons_succ]

theorem le_mem_knotsOf (l : List F) :
    ∀ (a : F), (∀ w ∈ l, 0 ≤ w) → ∀ e ∈ knotsOf a l, a ≤ e := by
  induction l with
  | nil =>
    intro a _ e he
    rw [knotsOf_nil, List.mem_singleton] at he
    exact he.ge
  | cons w t ih =>
    intro a hnn e he
    rw [knotsOf_cons] at he
    rcases List.mem_cons.mp he with rfl | he'
    · exact le_refl _
    · have hw : 0 ≤ w := hnn w (List.mem_cons_self _ _)
      have := ih (a + w) (fun u hu => hnn u (List.mem_cons_of_mem _ hu)) e he'
      linarith

theorem searchsorted_le_head (a v : F) (l : List F) (hnn : ∀ w ∈ l, 0 ≤ w)
    (hv : v ≤ a) : searchsorted (knotsOf a l) v = 0 := by
  unfold searchsorted
  rw [List.countP_eq_zero]
  intro e he
  have hae : a ≤ e := le_mem_knotsOf l a hnn e he
  simp only [decide_eq_true_eq]
  exact not_lt.2 (hv.trans hae)

theorem searchsorted_segment (l : List F) :
    ∀ (a v : F) (i : ℕ), (∀ w ∈ l, 0 < w) → i < l.length →
      cum a l i < v → v ≤ cum a l (i + 1) →
      searchsorted (knotsOf a l) v = i + 1 := by
  induction l with
  | nil =>
    intro a v i _ hi
    exact absurd hi (by simp)
  | cons w t ih =>
    intro a v i hpos hi hlo hhi
    have hpt : ∀ u ∈ t, 0 < u := fun u hu => hpos u (List.mem_cons_of_mem _ hu)
    rw [knotsOf_cons]
    cases i with
    | zero =>
      have ha : a < v := by
        rw [cum_zero] at hlo
        exact hlo
      have hv : v ≤ a + w := by
        rw [cum_cons_succ, cum_zero] at hhi
        exact hhi
      have h0 : searchsorted (knotsOf (a + w) t) v = 0 :=
        searchsorted_le_head (a + w) v t (fun u hu => (hpt u hu).le) hv
      unfold searchsorted at h0 ⊢
      rw [List.countP_cons, h0]
      simp [ha]
    | succ k =>
      have hk : k < t.length := by simpa using hi
      have hlo' : cum (a + w) t k < v := by rwa [cum_cons_succ] at hlo
      have hhi' : v ≤ cum (a + w) t (k + 1) := by rwa [cum_cons_succ] at hhi
      have hw : 0 < w := hpos w (List.mem_cons_self _ _)
      have haw : a + w ≤ cum (a + w) t k := by
        have := cum_le_cum (a + w) t (fun u hu => (hpt u hu).le) 0 k (Nat.zero_le _)
          hk.le
        rwa [cum_zero] at this
      have ha : a < v := by linarith
      have hrec := ih (a + w) v k hpt hk hlo' hhi'
      unfold searchsorted at hrec ⊢
      rw [List.countP_cons, hrec]
      simp [ha]

theorem segIdx_of_segment (l : List F) (a v : F) (i : ℕ) (hpos : ∀ w ∈ l, 0 < w)
    (hi : i < l.length) (hlo : cum a l i < v) (hhi : v ≤ cum a l (i + 1)) :
    segIdx (knotsOf a l) l.length v = i := by
  unfold segIdx
  rw [searchsorted_segment l a v i hpos hi hlo hhi]
  simp [Nat.min_eq_left hi.le]

theorem segIdx_of_head (l : List F) (a v : F) (K : ℕ) (hnn : ∀ w ∈ l, 0 ≤ w)
    (hv : v ≤ a) : segIdx (knotsOf a l) K v = 0 := by
  unfold segIdx
  rw [searchsorted_le_head a v l hnn hv]
  simp

/-! ### Evaluating the forward spline on a singleton batch -/

theorem fwdElem_eval (ws hs ds : List F) (x0 y0 x : F) (i : ℕ) (w h d0 d1 : F)
    (hw : ws[i]? = some w) (hh : hs[i]? = some h)
    (hd0 : ds[i]? = some d0) (hd1 : ds[i + 1]? = some d1)
    (hseg : segIdx (knotsOf x0 ws) ws.length x = i)
    (hi : i ≤ ws.length) (hih : i ≤ hs.length)
    (ha0 : 0 ≤ (x - cum x0 ws i) / w) (ha1 : (x - cum x0 ws i) / w ≤ 1) :
    fwdElem ws hs ds (knotsOf x0 ws) (knotsOf y0 hs) x =
      some (cum y0 hs i + h * rqBeta (h / w) d0 d1 ((x - cum x0 ws i) / w),
        rqGrad (h / w) d0 d1 ((x - cum x0 ws i) / w)) := by
  unfold fwdElem tryGather
  rw [hseg, hw, hh, hd0, hd1, knotsOf_getElem ws x0 i hi, knotsOf_getElem hs y0 i hih]
  simp [clamp01_eq_self _ ha0 ha1]

theorem rq_singleton_eval (lg : F → F) (ws hs ds : List F) (x0 y0 x : F) (i : ℕ)
    (w h d0 d1 : F)
    (hw : ws[i]? = some w) (hh : hs[i]? = some h)
    (hd0 : ds[i]? = some d0) (hd1 : ds[i + 1]? = some d1)
    (hwp : 0 < w) (hhp : 0 < h) (hd0p : 0 < d0) (hd1p : 0 < d1)
    (hseg : segIdx (knotsOf x0 ws) ws.length x = i)
    (hin0 : cum x0 ws 0 ≤ x) (hinK : x ≤ cum x0 ws ws.length)
    (hloc0 : cum x0 ws i ≤ x) (hlocw : x ≤ cum x0 ws i + w)
    (hi : i ≤ ws.length) (hih : i ≤ hs.length) :
    rq_spline_transform lg [[x]] ws hs ds (knotsOf x0 ws) (knotsOf y0 hs) =
      some ([[cum y0 hs i + h * rqBeta (h / w) d0 d1 ((x - cum x0 ws i) / w)]],
        [lg (rqGrad (h / w) d0 d1 ((x - cum x0 ws i) / w))]) := by
  have ha0 : 0 ≤ (x - cum x0 ws i) / w := div_nonneg (by linarith) hwp.le
  have ha1 : (x - cum x0 ws i) / w ≤ 1 := by
    rw [div_le_one hwp]
    linarith
  have hgrad : 0 < rqGrad (h / w) d0 d1 ((x - cum x0 ws i) / w) :=
    rqGrad_pos _ _ _ _ (div_pos hhp hwp) hd0p hd1p ha0 ha1
  have hfe := fwdElem_eval ws hs ds x0 y0 x i w h d0 d1 hw hh hd0 hd1 hseg hi hih ha0 ha1
  have hcum0 : (knotsOf x0 ws)[0]? = some (cum x0 ws 0) :=
    knotsOf_getElem ws x0 0 (Nat.zero_le _)
  have hlen : (knotsOf x0 ws).length - 1 = ws.length := by
    rw [length_knotsOf]
    exact Nat.succ_sub_one _
  have hcumK : (knotsOf x0 ws)[(knotsOf x0 ws).length - 1]? =
      some (cum x0 ws ws.length) := by
    rw [hlen]
    exact knotsOf_getElem ws x0 ws.length (le_refl _)
  unfold rq_spline_transform
  rw [hcum0, hcumK]
  simp only [omap, hfe, Option.bind_eq_bind, Option.some_bind, Option.pure_def]
  rw [if_pos]
  · simp [not_lt.2 hin0, not_lt.2 hinK]
  · simp [hgrad]

/-- C7: for a valid parametrization — strictly positive `widths`, `heights`,
`derivs`, the knot grids being the cumulative positions of those segments
(spec §3) — and two inputs `x1 < x2` inside the same segment `i`, the first
component of `rq_spline_transform` at `x1` is strictly below its value at
`x2`: the forward spline is strictly increasing within each segment. -/
theorem C7_forward_strictMono_in_segment (lg : F → F) (ws hs ds : List F)
    (x0 y0 x1 x2 : F) (i : ℕ)
    (hlh : hs.length = ws.length) (hld : ds.length = ws.length + 1)
    (hws : ∀ u ∈ ws, 0 < u) (hhs : ∀ u ∈ hs, 0 < u) (hds : ∀ u ∈ ds, 0 < u)
    (hi : i < ws.length)
    (hlo : cum x0 ws i < x1) (h12 : x1 < x2) (hhi : x2 ≤ cum x0 ws (i + 1)) :
    ∃ y1 y2 l1 l2,
      rq_spline_transform lg [[x1]] ws hs ds (knotsOf x0 ws) (knotsOf y0 hs) =
        some ([[y1]], l1) ∧
      rq_spline_transform lg [[x2]] ws hs ds (knotsOf x0 ws) (knotsOf y0 hs) =
        some ([[y2]], l2) ∧
      y1 < y2 := by
  have hih : i < hs.length := by rw [hlh]; exact hi
  have hid : i < ds.length := by rw [hld]; exact hi.trans (Nat.lt_succ_self _)
  have hid1 : i + 1 < ds.length := by rw [hld]; exact Nat.succ_lt_succ hi
  have hw : ws[i]? = some ws[i] := List.getElem?_eq_getElem hi
  have hh : hs[i]? = some hs[i] := List.getElem?_eq_getElem hih
  have hd0 : ds[i]? = some ds[i] := List.getElem?_eq_getElem hid
  have hd1 : ds[i + 1]? = some ds[i + 1] := List.getElem?_eq_getElem hid1
  have hwp : 0 < ws[i] := hws _ (List.getElem_mem hi)
  have hhp : 0 < hs[i] := hhs _ (List.getElem_mem hih)
  have hd0p : 0 < ds[i] := hds _ (List.getElem_mem hid)
  have hd1p : 0 < ds[i + 1] := hds _ (List.getElem_mem hid1)
  have hcw : cum x0 ws (i + 1) = cum x0 ws i + ws[i] := cum_succ_getElem x0 ws i _ hw
  have hwnn : ∀ u ∈ ws, 0 ≤ u := fun u hu => (hws u hu).le
  have hin0 : ∀ v : F, cum x0 ws i < v → cum x0 ws 0 ≤ v := fun v hv =>
    ((cum_le_cum x0 ws hwnn 0 i (Nat.zero_le _) hi.le).trans hv.le)
  have hinK : ∀ v : F, v ≤ cum x0 ws (i + 1) → v ≤ cum x0 ws ws.length := fun v hv =>
    hv.trans (cum_le_cum x0 ws hwnn (i + 1) ws.length (Nat.succ_le_of_lt hi)
      (le_refl _))
  have hlo2 : cum x0 ws i < x2 := hlo.trans h12
  have hhi1 : x1 ≤ cum x0 ws (i + 1) := (h12.le).trans hhi
  have hseg1 : segIdx (knotsOf x0 ws) ws.length x1 = i :=
    segIdx_of_segment ws x0 x1 i hws hi hlo hhi1
  have hseg2 : segIdx (knotsOf x0 ws) ws.length x2 = i :=
    segIdx_of_segment ws x0 x2 i hws hi hlo2 hhi
  have he1 := rq_singleton_eval lg ws hs ds x0 y0 x1 i ws[i] hs[i] ds[i] ds[i + 1]
    hw hh hd0 hd1 hwp hhp hd0p hd1p hseg1 (hin0 x1 hlo) (hinK x1 hhi1) hlo.le
    (by rw [← hcw]; exact hhi1) hi.le hih.le
  have he2 := rq_singleton_eval lg ws hs ds x0 y0 x2 i ws[i] hs[i] ds[i] ds[i + 1]
    hw hh hd0 hd1 hwp hhp hd0p hd1p hseg2 (hin0 x2 hlo2) (hinK x2 hhi) hlo2.le
    (by rw [← hcw]; exact hhi) hi.le hih.le
  refine ⟨_, _, _, _, he1, he2, ?_⟩
  have ha1pos : 0 < (x1 - cum x0 ws i) / ws[i] := div_pos (by linarith) hwp
  have halt : (x1 - cum x0 ws i) / ws[i] < (x2 - cum x0 ws i) / ws[i] :=
    (div_lt_div_iff_of_pos_right hwp).2 (by linarith)
  have ha2le : (x2 - cum x0 ws i) / ws[i] ≤ 1 := by
    rw [div_le_one hwp]
    rw [hcw] at hhi
    linarith
  have hbeta := rqBeta_strictMono (hs[i] / ws[i]) ds[i] ds[i + 1] _ _
    (div_pos hhp hwp) hd0p hd1p ha1pos.le halt ha2le
  exact add_lt_add_left (mul_lt_mul_of_pos_left hbeta hhp) _

/-- Witness for C7 at a concrete valid parametrization: one segment of width
3 and height 2, inputs 1 < 2 inside it. -/
theorem C7_witness :
    ∃ y1 y2 l1 l2,
      rq_spline_transform (id : ℚ → ℚ) [[1]] [3] [2] [1, 1]
        (knotsOf 0 [3]) (knotsOf 0 [2]) = some ([[y1]], l1) ∧
      rq_spline_transform (id : ℚ → ℚ) [[2]] [3] [2] [1, 1]
        (knotsOf 0 [3]) (knotsOf 0 [2]) = some ([[y2]], l2) ∧
      y1 < y2 :=
  C7_forward_strictMono_in_segment id [3] [2] [1, 1] 0 0 1 2 0 (by decide) (by decide)
    (by norm_num) (by norm_num) (by norm_num) (by decide)
    (by norm_num [cum]) (by norm_num) (by norm_num [cum])

/-- C10: under the cumulative-knot data model of spec §3 with strictly
positive `widths`, `heights`, `derivs`, the forward spline interpolates its
knots exactly: at input `knots_xcoords[j]` the first output component is
exactly `knots_ycoords[j]`. -/
theorem C10_knot_interpolation (lg : F → F) (ws hs ds : List F) (x0 y0 : F) (j : ℕ)
    (hlh : hs.length = ws.length) (hld : ds.length = ws.length + 1)
    (hws : ∀ u ∈ ws, 0 < u) (hhs : ∀ u ∈ hs, 0 < u) (hds : ∀ u ∈ ds, 0 < u)
    (hK : 0 < ws.length) (hj : j ≤ ws.length) :
    (rq_spline_transform lg [[cum x0 ws j]] ws hs ds
        (knotsOf x0 ws) (knotsOf y0 hs)).map Prod.fst =
      some [[cum y0 hs j]] := by
  have hwnn : ∀ u ∈ ws, 0 ≤ u := fun u hu => (hws u hu).le
  cases j with
  | zero =>
    have hih : 0 < hs.length := by rw [hlh]; exact hK
    have hid : 0 < ds.length := by rw [hld]; exact Nat.succ_pos _
    have hid1 : 1 < ds.length := by rw [hld]; exact Nat.succ_lt_succ hK
    have hw : ws[0]? = some ws[0] := List.getElem?_eq_getElem hK
    have hh : hs[0]? = some hs[0] := List.getElem?_eq_getElem hih
    have hd0 : ds[0]? = some ds[0] := List.getElem?_eq_getElem hid
    have hd1 : ds[0 + 1]? = some ds[1] := List.getElem?_eq_getElem hid1
    have hwp : (0 : F) < ws[0] := hws _ (List.getElem_mem hK)
    have hhp : (0 : F) < hs[0] := hhs _ (List.getElem_mem hih)
    have hd0p : (0 : F) < ds[0] := hds _ (List.getElem_mem hid)
    have hd1p : (0 : F) < ds[1] := hds _ (List.getElem_mem hid1)
    have hseg : segIdx (knotsOf x0 ws) ws.length (cum x0 ws 0) = 0 :=
      segIdx_of_head ws x0 (cum x0 ws 0) ws.length hwnn (by rw [cum_zero])
    have he := rq_singleton_eval lg ws hs ds x0 y0 (cum x0 ws 0) 0
      ws[0] hs[0] ds[0] ds[1] hw hh hd0 hd1 hwp hhp hd0p hd1p hseg
      (le_refl _) (cum_le_cum x0 ws hwnn 0 ws.length (Nat.zero_le _) (le_refl _))
      (le_refl _) (by linarith) (Nat.zero_le _) (Nat.zero_le _)
    rw [he]
    simp [rqBeta_zero]
  | succ i =>
    have hi : i < ws.length := hj
    have hih : i < hs.length := by rw [hlh]; exact hi
    have hid : i < ds.length := by rw [hld]; exact hi.trans (Nat.lt_succ_self _)
    have hid1 : i + 1 < ds.length := by rw [hld]; exact Nat.succ_lt_succ hi
    have hw : ws[i]? = some ws[i] := List.getElem?_eq_getElem hi
    have hh : hs[i]? = some hs[i] := List.getElem?_eq_getElem hih
    have hd0 : ds[i]? = some ds[i] := List.getElem?_eq_getElem hid
    have hd1 : ds[i + 1]? = some ds[i + 1] := List.getElem?_eq_getElem hid1
    have hwp : 0 < ws[i] := hws _ (List.getElem_mem hi)
    have hhp : 0 < hs[i] := hhs _ (List.getElem_mem hih)
    have hd0p : 0 < ds[i] := hds _ (List.getElem_mem hid)
    have hd1p : 0 < ds[i + 1] := hds _ (List.getElem_mem hid1)
    have hcw : cum x0 ws (i + 1) = cum x0 ws i + ws[i] := cum_succ_getElem x0 ws i _ hw
    have hch : cum y0 hs (i + 1) = cum y0 hs i + hs[i] :=
      cum_succ_getElem y0 hs i _ (List.getElem?_eq_getElem hih)
    have hlo : cum x0 ws i < cum x0 ws (i + 1) := by rw [hcw]; linarith
    have hseg : segIdx (knotsOf x0 ws) ws.length (cum x0 ws (i + 1)) = i :=
      segIdx_of_segment ws x0 (cum x0 ws (i + 1)) i hws hi hlo (le_refl _)
    have he := rq_singleton_eval lg ws hs ds x0 y0 (cum x0 ws (i + 1)) i
      ws[i] hs[i] ds[i] ds[i + 1] hw hh hd0 hd1 hwp hhp hd0p hd1p hseg
      ((cum_le_cum x0 ws hwnn 0 (i + 1) (Nat.zero_le _) hj).trans (le_refl _))
      (cum_le_cum x0 ws hwnn (i + 1) ws.length hj (le_refl _))
      hlo.le (by rw [hcw]) (Nat.le_of_lt hi) (Nat.le_of_lt hih)
    rw [he]
    have halpha : (cum x0 ws (i + 1) - cum x0 ws i) / ws[i] = 1 := by
      rw [hcw]
      field_simp
    rw [halpha, rqBeta_one _ _ _ (div_pos hhp hwp).ne']
    simp [hch]

/-- Witness for C10 at a concrete valid parametrization: one segment of
width 2 and height 3, evaluated at the right-hand knot. -/
theorem C10_witness :
    (rq_spline_transform (id : ℚ → ℚ) [[cum 0 [2] 1]] [2] [3] [1, 1]
        (knotsOf 0 [2]) (knotsOf 0 [3])).map Prod.fst =
      some [[cum 0 [3] 1]] :=
  C10_knot_interpolation id [2] [3] [1, 1] 0 0 1 (by decide) (by decide)
    (by norm_num) (by norm_num) (by norm_num) (by decide) (by decide)

/-! ### Concrete evaluations exhibiting the divergences -/

/-- C1: the round-trip contract fails on a valid in-interval input as soon as
a segment has height ≠ width, because the inverse computes
`beta = (y - y0) / w` instead of `(y - y0) / h`.  With one segment of width 1
and height 2 (knots x `[0,1]`, y `[0,2]`, unit derivatives), the forward map
sends `x = 1/2` to `y = 1` with `ldj = log (8/3)`, but the inverse sends
`y = 1` back to `1`, not `1/2`, and reports `ldj = 0 ≠ -log (8/3)`. -/
theorem C1_roundtrip_failure :
    rq_spline_transform Real.log [[(1 : ℝ) / 2]] [1] [2] [1, 1] [0, 1] [0, 2] =
      some ([[1]], [Real.log (8 / 3)]) ∧
    inv_rq_spline_transform Real.log Real.sqrt [[(1 : ℝ)]] [1] [2] [1, 1]
      [0, 1] [0, 2] = some ([[1]], [0]) ∧
    (1 : ℝ) ≠ 1 / 2 ∧ Real.log (8 / 3) ≠ -(0 : ℝ) := by
  refine ⟨?_, ?_, by norm_num, ?_⟩
  · norm_num [rq_spline_transform, omap, fwdElem, tryGather, segIdx, searchsorted,
      clamp01, rqBeta, rqGrad, rqDenomRecip, List.countP_cons, List.countP_nil]
  · norm_num [inv_rq_spline_transform, omap, invElem, tryGather, segIdx,
      searchsorted, clamp01, invB, invA, invC, rqGrad, rqDenomRecip,
      List.countP_cons, List.countP_nil]
  · rw [neg_zero]
    exact (Real.log_pos (by norm_num)).ne'

/-- C2: an input below the first knot is passed through unchanged, but its
log-det-Jacobian contribution is `log d0`, not `0`: the sum of line 298 runs
over every element, masked ones included.  Here `x = -1 < knots_xcoords[0] = 0`
and the boundary derivative is `2`, so the returned `ldj` is `log 2 ≠ 0`. -/
theorem C2_out_of_interval_ldj_nonzero :
    rq_spline_transform Real.log [[(-1 : ℝ)]] [1] [1] [2, 2] [0, 1] [0, 1] =
      some ([[-1]], [Real.log 2]) ∧
    (-1 : ℝ) < 0 ∧ Real.log 2 ≠ 0 := by
  refine ⟨?_, by norm_num, (Real.log_pos (by norm_num)).ne'⟩
  norm_num [rq_spline_transform, omap, fwdElem, tryGather, segIdx, searchsorted,
    clamp01, rqBeta, rqGrad, rqDenomRecip, List.countP_cons, List.countP_nil]

/-- C3: the clamp of line 258 is `clamp_(0, K)` with `K = widths.shape[-1]`,
not `clamp_(0, K-1)`.  For an input above the last knot the segment index is
`K = 1` (outside `[0, K-1] = {0}`) and the gather of `widths` (length 1) is
out of range, so the call raises instead of returning a result. -/
theorem C3_gather_out_of_range :
    rq_spline_transform Real.log [[(2 : ℝ)]] [1] [1] [1, 1] [0, 1] [0, 1] =
      none ∧
    segIdx ([0, 1] : List ℝ) 1 2 = 1 := by
  constructor
  · norm_num [rq_spline_transform, omap, fwdElem, tryGather, segIdx, searchsorted,
      clamp01, List.countP_cons, List.countP_nil]
  · norm_num [segIdx, searchsorted, List.countP_cons, List.countP_nil]

/-- C4: the inverse never applies the out-of-interval identity pass-through:
for `y = -1 < knots_ycoords[0] = 0` on the identity spline it returns
`x0 + w·alpha = 0`, not `y = -1`. -/
theorem C4_inverse_no_passthrough :
    inv_rq_spline_transform Real.log Real.sqrt [[(-1 : ℝ)]] [1] [1] [1, 1]
      [0, 1] [0, 1] = some ([[0]], [0]) ∧
    (-1 : ℝ) < 0 ∧ (0 : ℝ) ≠ -1 := by
  refine ⟨?_, by norm_num, by norm_num⟩
  norm_num [inv_rq_spline_transform, omap, invElem, tryGather, segIdx,
    searchsorted, clamp01, invB, invA, invC, rqGrad, rqDenomRecip,
    List.countP_cons, List.countP_nil]

/-- C6: whenever the forward pass reaches its assertion (the knot reads and
every gather succeed, producing the gradient tensor `gs`), the call returns a
complete result exactly when every gradient element is strictly positive, and
aborts (returns no result) when some element is not. -/
theorem C6_gradient_assertion (lg : F → F) (x : List (List F))
    (widths heights derivs kx ky : List F) (gs : List (List F))
    (hg : fwdGradients x widths heights derivs kx ky = some gs) :
    ((∀ g ∈ gs.flatten, 0 < g) →
      (rq_spline_transform lg x widths heights derivs kx ky).isSome = true) ∧
    ((∃ g ∈ gs.flatten, ¬0 < g) →
      rq_spline_transform lg x widths heights derivs kx ky = none) := by
  cases hk0 : kx[0]? with
  | none =>
    rw [fwdGradients, hk0] at hg
    simp at hg
  | some k0 =>
    cases hkl : kx[kx.length - 1]? with
    | none =>
      rw [fwdGradients, hk0, hkl] at hg
      simp at hg
    | some kl =>
      cases hrows : omap (omap (fwdElem widths heights derivs kx ky)) x with
      | none =>
        rw [fwdGradients, hk0, hkl, hrows] at hg
        simp at hg
      | some rows =>
        have hgs : gs = rows.map (List.map Prod.snd) := by
          rw [fwdGradients, hk0, hkl, hrows] at hg
          simpa using hg.symm
        have hcond :
            (rows.all (fun row => row.all (fun p => decide (0 < p.2))) = true) ↔
              ∀ g ∈ gs.flatten, 0 < g := by
          subst hgs
          simp only [List.all_eq_true, decide_eq_true_eq, List.mem_flatten]
          constructor
          · rintro hall g ⟨l, hl, hgl⟩
            obtain ⟨row, hrow, rfl⟩ := List.mem_map.mp hl
            obtain ⟨p, hp, rfl⟩ := List.mem_map.mp hgl
            exact hall row hrow p hp
          · intro hall row hrow p hp
            exact hall _ ⟨row.map Prod.snd, List.mem_map_of_mem _ hrow,
              List.mem_map_of_mem _ hp⟩
        rw [rq_spline_transform, hk0, hkl, hrows]
        simp only [Option.bind_eq_bind, Option.some_bind]
        constructor
        · intro hp
          rw [if_pos (hcond.mpr hp)]
          rfl
        · rintro ⟨g, hmem, hneg⟩
          rw [if_neg]
          intro hc
          exact hneg (hcond.mp hc g hmem)

/-- Witness for C6: the identity spline on the in-interval input `0` has
gradient tensor `[[1]]`, all positive, and the call returns a result. -/
theorem C6_witness :
    (rq_spline_transform (id : ℚ → ℚ) [[0]] [1] [1] [1, 1] [0, 1]
      [0, 1]).isSome = true :=
  (C6_gradient_assertion id [[0]] [1] [1] [1, 1] [0, 1] [0, 1] [[1]]
    (by norm_num [fwdGradients, omap, fwdElem, tryGather, segIdx, searchsorted,
      clamp01, rqBeta, rqGrad, rqDenomRecip, List.countP_cons,
      List.countP_nil])).1
    (by decide)

/-! ### Scalar inverse laws for the elementwise set -/

theorem atanh_tanh (v : ℝ) : atanh (Real.tanh v) = v := by
  have hc : (0 : ℝ) < Real.cosh v := Real.cosh_pos v
  have h1 : 1 + Real.tanh v = Real.exp v / Real.cosh v := by
    rw [Real.tanh_eq_sinh_div_cosh, ← Real.cosh_add_sinh v]
    field_simp
  have h2 : 1 - Real.tanh v = Real.exp (-v) / Real.cosh v := by
    rw [Real.tanh_eq_sinh_div_cosh, ← Real.cosh_sub_sinh v]
    field_simp
  have h3 : (1 + Real.tanh v) / (1 - Real.tanh v) = Real.exp (2 * v) := by
    rw [h1, h2]
    have h4 : Real.exp v / Real.cosh v / (Real.exp (-v) / Real.cosh v) =
        Real.exp v / Real.exp (-v) := by
      field_simp
    rw [h4, ← Real.exp_sub]
    norm_num [two_mul]
  unfold atanh
  rw [h3, Real.log_exp]
  ring

theorem one_sub_tanh_sq (v : ℝ) :
    1 + -(Real.tanh v ^ 2) = (Real.cosh v ^ 2)⁻¹ := by
  have hc : Real.cosh v ≠ 0 := (Real.cosh_pos v).ne'
  rw [Real.tanh_eq_sinh_div_cosh]
  field_simp
  nlinarith [Real.cosh_sq_sub_sinh_sq v]

theorem inv_tanh_ldj_elem (v : ℝ) :
    -Real.log (1 + -(Real.tanh v ^ 2)) = -(Real.log (Real.cosh v) * (-2)) := by
  rw [one_sub_tanh_sq, Real.log_inv, Real.log_pow]
  push_cast
  ring

/-! ### Batched helpers for the elementwise set -/

theorem sum_neglist : ∀ l : List ℝ, (l.map (fun v => -v)).sum = -l.sum
  | [] => by simp
  | a :: l => by simp [sum_neglist l]; ring

theorem sum_except_batch_map_neg (p : ℝ → ℝ) (P : List (List ℝ)) :
    sum_except_batch (tmap (fun a => -p a) P) =
      (sum_except_batch (tmap p P)).map (fun v => -v) := by
  unfold sum_except_batch tmap
  rw [List.map_map, List.map_map, List.map_map]
  have h : (List.sum ∘ List.map fun a => -p a) = (fun v : ℝ => -v) ∘
      (List.sum ∘ List.map p) := by
    funext row
    have : row.map (fun a => -p a) = (row.map p).map (fun v => -v) := by
      rw [List.map_map]
      rfl
    simp only [Function.comp_apply, this, sum_neglist]
  rw [h]
  rfl

theorem sameShape_length {γ : Type} (a b : List (List γ)) (h : sameShape a b) :
    a.length = b.length := by
  have := congrArg List.length h
  simpa using this

theorem sameShape_nil {γ : Type} (t : List (List γ)) (h : sameShape [] t) :
    t = [] := by
  unfold sameShape at h
  cases t with
  | nil => rfl
  | cons u us => simp at h

theorem sameShape_cons {γ : Type} (r : List γ) (xs t : List (List γ))
    (h : sameShape (r :: xs) t) :
    ∃ u us, t = u :: us ∧ r.length = u.length ∧ sameShape xs us := by
  cases t with
  | nil => simp [sameShape] at h
  | cons u us =>
    unfold sameShape at h
    simp only [List.map_cons, List.cons.injEq] at h
    exact ⟨u, us, rfl, h.1, h.2⟩

theorem zipWith_inv_row (f g : ℝ → ℝ → ℝ) (hfg : ∀ a s, g (f a s) s = a) :
    ∀ (r t : List ℝ), r.length = t.length →
      List.zipWith g (List.zipWith f r t) t = r := by
  intro r
  induction r with
  | nil => intro t _; simp
  | cons a r' ih =>
    intro t hlen
    cases t with
    | nil => simp at hlen
    | cons s t' =>
      simp only [List.zipWith_cons_cons, hfg]
      rw [ih t' (by simpa using hlen)]

theorem tmap2_inv (f g : ℝ → ℝ → ℝ) (hfg : ∀ a s, g (f a s) s = a) :
    ∀ (x t : List (List ℝ)), sameShape x t → tmap2 g (tmap2 f x t) t = x := by
  intro x
  induction x with
  | nil => intro t _; simp [tmap2]
  | cons r xs ih =>
    intro t ht
    obtain ⟨u, us, rfl, hru, hs⟩ := sameShape_cons r xs t ht
    simp only [tmap2, List.zipWith_cons_cons]
    rw [zipWith_inv_row f g hfg r u hru]
    have := ih us hs
    simpa [tmap2] using this

theorem tmap2_length {γ : Type} (f : γ → γ → γ) (a b : List (List γ))
    (h : a.length = b.length) : (List.zipWith (List.zipWith f) a b).length =
      a.length := by
  simp [List.length_zipWith, h]

theorem tmap_tmap (p q : ℝ → ℝ) (x : List (List ℝ)) :
    tmap q (tmap p x) = tmap (fun v => q (p v)) x := by
  unfold tmap
  rw [List.map_map]
  congr 1
  funext row
  simp [List.map_map, Function.comp_def]

theorem sum_except_batch_neg_neg (P : List (List ℝ)) :
    sum_except_batch P = (sum_except_batch (tmap (fun v => -v) P)).map
      fun v => -v := by
  calc sum_except_batch P = sum_except_batch (tmap (fun a : ℝ => -(-a)) P) := by
        simp [tmap]
    _ = (sum_except_batch (tmap (fun v : ℝ => -v) P)).map (fun v => -v) :=
        sum_except_batch_map_neg _ P

theorem affine_inv_row :
    ∀ (r u v : List ℝ), r.length = u.length → r.length = v.length →
      List.zipWith (fun a s => a * Real.exp s)
        (List.zipWith (fun a t => a - t)
          (List.zipWith (fun a t => a + t)
            (List.zipWith (fun a s => a * Real.exp (-s)) r u) v) v) u = r := by
  intro r
  induction r with
  | nil => intro u v _ _; simp
  | cons a r' ih =>
    intro u v hu hv
    cases u with
    | nil => simp at hu
    | cons s u' =>
      cases v with
      | nil => simp at hv
      | cons t v' =>
        simp only [List.zipWith_cons_cons]
        rw [ih u' v' (by simpa using hu) (by simpa using hv)]
        congr 1
        rw [add_sub_cancel_right, mul_assoc, ← Real.exp_add, neg_add_cancel,
          Real.exp_zero, mul_one]

theorem affine_inv_tensor :
    ∀ (x s t : List (List ℝ)), sameShape x s → sameShape x t →
      List.zipWith (List.zipWith fun a u => a * Real.exp u)
        (List.zipWith (List.zipWith fun a u => a - u)
          (List.zipWith (List.zipWith fun a u => a + u)
            (List.zipWith (List.zipWith fun a u => a * Real.exp (-u)) x s) t) t)
        s = x := by
  intro x
  induction x with
  | nil => intro s t _ _; simp
  | cons r xs ih =>
    intro s t hs ht
    obtain ⟨us, uss, rfl, hru, hss⟩ := sameShape_cons r xs s hs
    obtain ⟨ut, uts, rfl, hrt, hts⟩ := sameShape_cons r xs t ht
    simp only [List.zipWith_cons_cons]
    rw [affine_inv_row r us ut hru hrt, ih uss uts hss hts]

/-- C8: every elementwise bijector pair satisfies the inverse laws.  For
each pair and every input and (shape-matching) parameter tensors, applying
the inverse to the forward output recovers the input exactly, and the
log-det-Jacobian reported by the inverse call is elementwise the negative of
the one reported by the forward call. -/
theorem C8_elementwise_inverse_laws :
    (∀ x : List (List ℝ),
      (inv_tanh (tanh x).1).1 = x ∧
      (inv_tanh (tanh x).1).2 = (tanh x).2.map (fun v => -v)) ∧
    (∀ x t : List (List ℝ), sameShape x t →
      (inv_translation (translation x t).1 t).1 = x ∧
      (inv_translation (translation x t).1 t).2 =
        (translation x t).2.map (fun v => -v)) ∧
    (∀ x s : List (List ℝ), sameShape x s →
      (inv_rescaling (rescaling x s).1 s).1 = x ∧
      (inv_rescaling (rescaling x s).1 s).2 =
        (rescaling x s).2.map (fun v => -v)) ∧
    (∀ x s : List (List ℝ), sameShape x s →
      (inv_soft_rescaling (soft_rescaling x s).1 s).1 = x ∧
      (inv_soft_rescaling (soft_rescaling x s).1 s).2 =
        (soft_rescaling x s).2.map (fun v => -v)) ∧
    (∀ x s t : List (List ℝ), sameShape x s → sameShape x t →
      (inv_affine_transform (affine_transform x s t).1 s t).1 = x ∧
      (inv_affine_transform (affine_transform x s t).1 s t).2 =
        (affine_transform x s t).2.map (fun v => -v)) := by
  refine ⟨?_, ?_, ?_, ?_, ?_⟩
  · intro x
    constructor
    · show tmap atanh (tmap Real.tanh x) = x
      rw [tmap_tmap]
      simp [tmap, atanh_tanh]
    · show sum_except_batch (tmap (fun v => -Real.log (1 + -(v ^ 2)))
          (tmap Real.tanh x)) = _
      rw [tmap_tmap]
      have hfun : (fun v => -Real.log (1 + -(Real.tanh v ^ 2))) =
          fun v : ℝ => -(Real.log (Real.cosh v) * (-2)) :=
        funext inv_tanh_ldj_elem
      rw [hfun, sum_except_batch_map_neg]
      rfl
  · intro x t ht
    have hlen : x.length = t.length := sameShape_length x t ht
    constructor
    · exact tmap2_inv _ _ (fun a s => add_sub_cancel_right a s) x t ht
    · show List.replicate (tmap2 (fun a t => a - t)
          (tmap2 (fun a t => a + t) x t) t).length (0 : ℝ) = _
      have h1 : (tmap2 (fun a t => a + t) x t).length = x.length :=
        tmap2_length _ x t hlen
      have h2 : (tmap2 (fun a t => a - t) (tmap2 (fun a t => a + t) x t) t).length
          = x.length := by
        unfold tmap2 at h1 ⊢
        simp [List.length_zipWith, h1, ← hlen]
      rw [h2]
      unfold translation
      rw [h1]
      simp [List.map_replicate]
  · intro x s hs
    constructor
    · refine tmap2_inv _ _ (fun a u => ?_) x s hs
      rw [mul_assoc, ← Real.exp_add, neg_add_cancel, Real.exp_zero, mul_one]
    · exact sum_except_batch_neg_neg s
  · intro x s hs
    constructor
    · refine tmap2_inv _ _ (fun a u => ?_) x s hs
      have hL : (0 : ℝ) < Real.log (1 + Real.exp u) := by
        apply Real.log_pos
        linarith [Real.exp_pos u]
      exact mul_div_cancel_right₀ a hL.ne'
    · exact sum_except_batch_map_neg (fun u => Real.log (Real.log (1 + Real.exp u))) s
  · intro x s t hs ht
    have hxs : x.length = s.length := sameShape_length x s hs
    have hxt : x.length = t.length := sameShape_length x t ht
    constructor
    · exact affine_inv_tensor x s t hs ht
    · exact sum_except_batch_neg_neg s

/-! ### Batch independence -/

theorem batchIndep_map_map (f : ℝ → ℝ) (g : List ℝ → ℝ) :
    batchIndep (fun x => some (x.map (List.map f), x.map g)) := by
  intro x x' i o o' l l' h h' hx
  injection Option.some.inj h with h1 h2
  injection Option.some.inj h' with h1' h2'
  subst h1 h2 h1' h2'
  constructor
  · rw [List.getElem?_map, List.getElem?_map, hx]
  · rw [List.getElem?_map, List.getElem?_map, hx]

theorem batchIndep_zip_param (f : ℝ → ℝ → ℝ) (t : List (List ℝ)) (c : List ℝ) :
    batchIndep (fun x => some (List.zipWith (List.zipWith f) x t, c)) := by
  intro x x' i o o' l l' h h' hx
  injection Option.some.inj h with h1 h2
  injection Option.some.inj h' with h1' h2'
  subst h1 h2 h1' h2'
  constructor
  · rw [List.getElem?_zipWith', List.getElem?_zipWith', hx]
  · rfl

theorem batchIndep_zip2_param (f g : ℝ → ℝ → ℝ) (u v : List (List ℝ))
    (c : List ℝ) :
    batchIndep (fun x => some
      (List.zipWith (List.zipWith g) (List.zipWith (List.zipWith f) x u) v, c)) := by
  intro x x' i o o' l l' h h' hx
  injection Option.some.inj h with h1 h2
  injection Option.some.inj h' with h1' h2'
  subst h1 h2 h1' h2'
  constructor
  · rw [List.getElem?_zipWith', List.getElem?_zipWith',
      List.getElem?_zipWith', List.getElem?_zipWith', hx]
  · rfl

theorem batchIndep_zip_replicate (f : ℝ → ℝ → ℝ) (t : List (List ℝ)) :
    batchIndep (fun x => some (List.zipWith (List.zipWith f) x t,
      List.replicate (List.zipWith (List.zipWith f) x t).length (0 : ℝ))) := by
  intro x x' i o o' l l' h h' hx
  injection Option.some.inj h with h1 h2
  injection Option.some.inj h' with h1' h2'
  subst h1 h2 h1' h2'
  have hiff : i < x.length ↔ i < x'.length := by
    constructor
    · intro hi
      have := List.getElem?_eq_getElem hi
      rw [hx] at this
      exact (List.getElem?_eq_some_iff.mp this).1
    · intro hi
      have := List.getElem?_eq_getElem hi
      rw [← hx] at this
      exact (List.getElem?_eq_some_iff.mp this).1
  constructor
  · rw [List.getElem?_zipWith', List.getElem?_zipWith', hx]
  · rw [List.getElem?_replicate, List.getElem?_replicate]
    have hcnd : (i < (List.zipWith (List.zipWith f) x t).length) ↔
        (i < (List.zipWith (List.zipWith f) x' t).length) := by
      simp only [List.length_zipWith, lt_min_iff]
      rw [hiff]
    rw [if_congr hcnd rfl rfl]

theorem batchIndep_rq_forward (lg : F → F) (ws hs ds kx ky : List F) :
    batchIndep (fun x => rq_spline_transform lg x ws hs ds kx ky) := by
  intro x x' i o o' l l' h h' hx
  simp only at h h'
  cases hk0 : kx[0]? with
  | none => rw [rq_spline_transform, hk0] at h; simp at h
  | some k0 =>
  cases hkl : kx[kx.length - 1]? with
  | none => rw [rq_spline_transform, hk0, hkl] at h; simp at h
  | some kl =>
  cases hrows : omap (omap (fwdElem ws hs ds kx ky)) x with
  | none => rw [rq_spline_transform, hk0, hkl, hrows] at h; simp at h
  | some rows =>
  cases hrows' : omap (omap (fwdElem ws hs ds kx ky)) x' with
  | none => rw [rq_spline_transform, hk0, hkl, hrows'] at h'; simp at h'
  | some rows' =>
  rw [rq_spline_transform, hk0, hkl, hrows] at h
  rw [rq_spline_transform, hk0, hkl, hrows'] at h'
  simp only [Option.bind_eq_bind, Option.some_bind] at h h'
  have hri : rows[i]? = rows'[i]? := by
    rw [omap_some_getElem _ x rows hrows i, omap_some_getElem _ x' rows' hrows' i,
      hx]
  cases hc : rows.all (fun row => row.all (fun p => decide (0 < p.2))) with
  | false => rw [hc] at h; simp at h
  | true =>
  cases hc' : rows'.all (fun row => row.all (fun p => decide (0 < p.2))) with
  | false => rw [hc'] at h'; simp at h'
  | true =>
  rw [hc] at h
  rw [hc'] at h'
  simp only [if_true, Option.some.injEq] at h h'
  injection h with h1 h2
  injection h' with h1' h2'
  subst h1 h2 h1' h2'
  constructor
  · rw [List.getElem?_zipWith', List.getElem?_zipWith', hx, hri]
  · rw [List.getElem?_map, List.getElem?_map, hri]

theorem batchIndep_rq_inverse (lg sq : F → F) (ws hs ds kx ky : List F) :
    batchIndep (fun y => inv_rq_spline_transform lg sq y ws hs ds kx ky) := by
  intro y y' i o o' l l' h h' hy
  simp only at h h'
  cases hk0 : ky[0]? with
  | none => rw [inv_rq_spline_transform, hk0] at h; simp at h
  | some k0 =>
  cases hkl : ky[ky.length - 1]? with
  | none => rw [inv_rq_spline_transform, hk0, hkl] at h; simp at h
  | some kl =>
  cases hrows : omap (omap (invElem sq ws hs ds kx ky)) y with
  | none => rw [inv_rq_spline_transform, hk0, hkl, hrows] at h; simp at h
  | some rows =>
  cases hrows' : omap (omap (invElem sq ws hs ds kx ky)) y' with
  | none => rw [inv_rq_spline_transform, hk0, hkl, hrows'] at h'; simp at h'
  | some rows' =>
  rw [inv_rq_spline_transform, hk0, hkl, hrows] at h
  rw [inv_rq_spline_transform, hk0, hkl, hrows'] at h'
  simp only [Option.bind_eq_bind, Option.some_bind, Option.some.injEq] at h h'
  have hri : rows[i]? = rows'[i]? := by
    rw [omap_some_getElem _ y rows hrows i, omap_some_getElem _ y' rows' hrows' i,
      hy]
  injection h with h1 h2
  injection h' with h1' h2'
  subst h1 h2 h1' h2'
  constructor
  · rw [List.getElem?_map, List.getElem?_map, hri]
  · rw [List.getElem?_map, List.getElem?_map, hri]

/-- C9: for every bijector of the module — the five elementwise pairs and
both spline directions — batch row `i` of the output and entry `i` of the
log-det-Jacobian are functions of batch row `i` of the input and of the
parameters alone: two calls with the same parameters whose inputs agree on
row `i` return identical row `i` and `ldj[i]`, whatever the other rows
hold (for the spline, whenever both calls return a result). -/
theorem C9_batch_independence :
    batchIndep (fun x => some (tanh x)) ∧
    batchIndep (fun y => some (inv_tanh y)) ∧
    (∀ t, batchIndep (fun x => some (translation x t))) ∧
    (∀ t, batchIndep (fun y => some (inv_translation y t))) ∧
    (∀ s, batchIndep (fun x => some (rescaling x s))) ∧
    (∀ s, batchIndep (fun y => some (inv_rescaling y s))) ∧
    (∀ s, batchIndep (fun x => some (soft_rescaling x s))) ∧
    (∀ s, batchIndep (fun y => some (inv_soft_rescaling y s))) ∧
    (∀ s t, batchIndep (fun x => some (affine_transform x s t))) ∧
    (∀ s t, batchIndep (fun y => some (inv_affine_transform y s t))) ∧
    (∀ (lg : ℝ → ℝ) ws hs ds kx ky,
      batchIndep (fun x => rq_spline_transform lg x ws hs ds kx ky)) ∧
    (∀ (lg sq : ℝ → ℝ) ws hs ds kx ky,
      batchIndep (fun y => inv_rq_spline_transform lg sq y ws hs ds kx ky)) := by
  refine ⟨?_, ?_, ?_, ?_, ?_, ?_, ?_, ?_, ?_, ?_, ?_, ?_⟩
  · have e : (fun x : List (List ℝ) => some (tanh x)) =
        (fun x => some (x.map (List.map Real.tanh),
          x.map (fun r =>
            (r.map (fun v => Real.log (Real.cosh v) * (-2))).sum))) := by
      funext x
      simp [tanh, tmap, sum_except_batch, List.map_map, Function.comp_def]
    rw [e]
    exact batchIndep_map_map _ _
  · have e : (fun y : List (List ℝ) => some (inv_tanh y)) =
        (fun y => some (y.map (List.map atanh),
          y.map (fun r => (r.map (fun v => -Real.log (1 + -(v ^ 2)))).sum))) := by
      funext y
      simp [inv_tanh, tmap, sum_except_batch, List.map_map, Function.comp_def]
    rw [e]
    exact batchIndep_map_map _ _
  · intro t
    exact batchIndep_zip_replicate (fun a u => a + u) t
  · intro t
    exact batchIndep_zip_replicate (fun a u => a - u) t
  · intro s
    exact batchIndep_zip_param (fun a u => a * Real.exp (-u)) s _
  · intro s
    exact batchIndep_zip_param (fun a u => a * Real.exp u) s _
  · intro s
    exact batchIndep_zip_param (fun a u => a * Real.log (1 + Real.exp u)) s _
  · intro s
    exact batchIndep_zip_param (fun a u => a / Real.log (1 + Real.exp u)) s _
  · intro s t
    exact batchIndep_zip2_param (fun a u => a * Real.exp (-u)) (fun a u => a + u)
      s t _
  · intro s t
    exact batchIndep_zip2_param (fun a u => a - u) (fun a u => a * Real.exp u)
      t s _
  · intro lg ws hs ds kx ky
    exact batchIndep_rq_forward lg ws hs ds kx ky
  · intro lg sq ws hs ds kx ky
    exact batchIndep_rq_inverse lg sq ws hs ds kx ky

end LFT
